import Mathlib

/-
Verification development for the norm async database toolkit.

The repository ships a fair resource pool (NextAvailablePool), a blocking
runner over a synchronous database connection (BlockingRunner), a pool of
runners (ConnectionPool), and an object-property mapping layer.  The
implementation modules (norm/common.py, norm/orm.py) are not present in the
source tree here, only their test suite is; the definitions below are
therefore modelled from the specification (spec.md §4.2–§4.4, §9) and the
behaviours asserted by norm/test/test_common.py and norm/test/test_orm.py.

The pool is modelled as a state machine: a `PoolState` records the four
collections of §3 (available, checked-out, pending-get, pending-remove),
and each public operation is a function from states to a new state plus
the list of future resolutions ("events") the operation performs.  A
future is identified by a natural-number id (`FId`); resolving the future
belonging to id `i` with resource `r` is the event `Event.gotResource i r`
(for `get` futures) or `Event.removed i r` (for `remove` futures).
-/

namespace Norm

/-- Identifier of a future handed out by the pool (a pending get or a
pending remove request). -/
abbrev FId := Nat

/-- A future resolution performed by a pool operation. -/
inductive Event (α : Type) where
  | gotResource (fid : FId) (r : α)
  | removed (fid : FId) (r : α)
  deriving DecidableEq

/-- Modelled from the spec: §3 data model of NextAvailablePool
(norm/common.py is absent from the tree).  The four collections: the
ordered sequence of available resources, the set of checked-out resources,
the FIFO queue of pending get requests, and the arrival-ordered queue of
pending remove requests, each tagged with the resource it wants. -/
structure PoolState (α : Type) where
  available : List α
  checkedOut : List α
  pendingGet : List FId
  pendingRemove : List (α × FId)
  deriving DecidableEq

/-- The pool as freshly constructed: every collection empty. -/
def emptyPool {α : Type} : PoolState α := ⟨[], [], [], []⟩

/-- Modelled from the spec: §4.2 `add(resource)` — inserts the resource
into available; if any pending-get requests exist, immediately hands the
resource to the earliest one instead of placing it in available. -/
def PoolState.add {α : Type} (s : PoolState α) (r : α) :
    PoolState α × List (Event α) :=
  match s.pendingGet with
  | [] => ({ s with available := s.available ++ [r] }, [])
  | fid :: rest =>
      ({ s with pendingGet := rest, checkedOut := s.checkedOut ++ [r] },
       [Event.gotResource fid r])

/-- Modelled from the spec: §4.2 `get()` — if available is non-empty,
removes and returns its first element as an already-resolved future and
marks it checked-out; otherwise enqueues a new pending-get request. -/
def PoolState.get {α : Type} (s : PoolState α) (fid : FId) :
    PoolState α × List (Event α) :=
  match s.available with
  | [] => ({ s with pendingGet := s.pendingGet ++ [fid] }, [])
  | r :: rest =>
      ({ s with available := rest, checkedOut := s.checkedOut ++ [r] },
       [Event.gotResource fid r])

/-- Modelled from the spec: §4.2 `done(resource)` — marks the resource no
longer checked-out, then: (1) if pending-remove has entries for it, resolve
all of them with the resource and do not return it to available; (2) else
if pending-get has entries, resolve the earliest one with the resource
directly; (3) else append the resource to available.  A `done` for a
resource that is not checked out is not described by the spec and is
modelled as a no-op. -/
def PoolState.done {α : Type} [DecidableEq α] (s : PoolState α) (r : α) :
    PoolState α × List (Event α) :=
  if r ∈ s.checkedOut then
    match s.pendingRemove.filter (fun p => decide (p.1 = r)), s.pendingGet with
    | [], [] =>
        ({ s with checkedOut := s.checkedOut.erase r,
                  available := s.available ++ [r] }, [])
    | [], fid :: rest =>
        ({ s with checkedOut := s.checkedOut.erase r ++ [r],
                  pendingGet := rest },
         [Event.gotResource fid r])
    | p :: q, _ =>
        ({ s with checkedOut := s.checkedOut.erase r,
                  pendingRemove := s.pendingRemove.filter
                    (fun u => decide (¬ u.1 = r)) },
         (p :: q).map (fun u => Event.removed u.2 r))
  else (s, [])

/-- Modelled from the spec: §4.2 `remove(resource)` — if the resource is
currently in available, remove it immediately and resolve the returned
future synchronously; otherwise enqueue a pending-remove request resolved
by a later `done` for the same resource. -/
def PoolState.remove {α : Type} [DecidableEq α] (s : PoolState α) (fid : FId)
    (r : α) : PoolState α × List (Event α) :=
  if r ∈ s.available then
    ({ s with available := s.available.erase r }, [Event.removed fid r])
  else
    ({ s with pendingRemove := s.pendingRemove ++ [(r, fid)] }, [])

/-- One public pool operation (§4.2); `get` and `remove` carry the id of
the future they create. -/
inductive Op (α : Type) where
  | add (r : α)
  | get (fid : FId)
  | done (r : α)
  | remove (fid : FId) (r : α)
  deriving DecidableEq

/-- Execute one operation on the pool state (§5: each operation is a
single atomic step of the cooperative scheduler). -/
def step {α : Type} [DecidableEq α] (s : PoolState α) :
    Op α → PoolState α × List (Event α)
  | Op.add r => s.add r
  | Op.get fid => s.get fid
  | Op.done r => s.done r
  | Op.remove fid r => s.remove fid r

/-- Execute a sequence of operations, collecting all future resolutions in
order. -/
def runPool {α : Type} [DecidableEq α] (s : PoolState α) :
    List (Op α) → PoolState α × List (Event α)
  | [] => (s, [])
  | op :: rest =>
      ((runPool (step s op).1 rest).1,
       (step s op).2 ++ (runPool (step s op).1 rest).2)

/-- Well-formed use of the pool at a given state: a resource is only added
while the pool does not already hold it, and the id chosen for a new get
future is not already pending.  `done` and `remove` are unrestricted. -/
def WFOp {α : Type} [DecidableEq α] (s : PoolState α) : Op α → Bool
  | Op.add r => decide (r ∉ s.available) && decide (r ∉ s.checkedOut)
  | Op.get fid => decide (fid ∉ s.pendingGet)
  | Op.done _ => true
  | Op.remove _ _ => true

/-- A trace of operations each of which is well formed at the state it
executes in. -/
def WFTrace {α : Type} [DecidableEq α] (s : PoolState α) : List (Op α) → Bool
  | [] => true
  | op :: rest => WFOp s op && WFTrace (step s op).1 rest

/-- The structural pool invariant of §3: available and checked-out have no
duplicates and are disjoint, so each known resource sits in exactly one of
the two collections. -/
def Inv {α : Type} (s : PoolState α) : Prop :=
  s.available.Nodup ∧ s.checkedOut.Nodup ∧
    ∀ r : α, r ∈ s.available → r ∉ s.checkedOut

/-- The resources still held by some caller once the operation `op` has
released what it releases: `done r` is the old holder of `r` giving it
back, every other operation releases nothing. -/
def holdersAfterRelease {α : Type} [DecidableEq α] (s : PoolState α) :
    Op α → List α
  | Op.done r => s.checkedOut.erase r
  | _ => s.checkedOut

/-! Equational description of each operation, used by all proofs below. -/

theorem add_eq_of_no_pending {α : Type} (s : PoolState α) (r : α)
    (h : s.pendingGet = []) :
    s.add r = ({ s with available := s.available ++ [r] }, []) := by
  rw [PoolState.add, h]

theorem add_eq_of_pending {α : Type} (s : PoolState α) (r : α) (fid : FId)
    (rest : List FId) (h : s.pendingGet = fid :: rest) :
    s.add r = ({ s with pendingGet := rest,
                        checkedOut := s.checkedOut ++ [r] },
               [Event.gotResource fid r]) := by
  rw [PoolState.add, h]

theorem get_eq_of_empty {α : Type} (s : PoolState α) (fid : FId)
    (h : s.available = []) :
    s.get fid = ({ s with pendingGet := s.pendingGet ++ [fid] }, []) := by
  rw [PoolState.get, h]

theorem get_eq_of_avail {α : Type} (s : PoolState α) (fid : FId) (r : α)
    (rest : List α) (h : s.available = r :: rest) :
    s.get fid = ({ s with available := rest,
                          checkedOut := s.checkedOut ++ [r] },
                 [Event.gotResource fid r]) := by
  rw [PoolState.get, h]

theorem remove_eq_of_avail {α : Type} [DecidableEq α] (s : PoolState α)
    (fid : FId) (r : α) (h : r ∈ s.available) :
    s.remove fid r = ({ s with available := s.available.erase r },
                      [Event.removed fid r]) := by
  rw [PoolState.remove, if_pos h]

theorem remove_eq_of_not_avail {α : Type} [DecidableEq α] (s : PoolState α)
    (fid : FId) (r : α) (h : r ∉ s.available) :
    s.remove fid r =
      ({ s with pendingRemove := s.pendingRemove ++ [(r, fid)] }, []) := by
  rw [PoolState.remove, if_neg h]

theorem done_eq_of_not_checkedOut {α : Type} [DecidableEq α]
    (s : PoolState α) (r : α) (h : r ∉ s.checkedOut) :
    s.done r = (s, []) := by
  rw [PoolState.done, if_neg h]

theorem done_eq_of_removals {α : Type} [DecidableEq α] (s : PoolState α)
    (r : α) (hc : r ∈ s.checkedOut) (p : α × FId) (q : List (α × FId))
    (hf : s.pendingRemove.filter (fun u => decide (u.1 = r)) = p :: q) :
    s.done r =
      ({ s with checkedOut := s.checkedOut.erase r,
                pendingRemove := s.pendingRemove.filter
                  (fun u => decide (¬ u.1 = r)) },
       (p :: q).map (fun u => Event.removed u.2 r)) := by
  rw [PoolState.done, if_pos hc, hf]

theorem done_eq_of_pendingGet {α : Type} [DecidableEq α] (s : PoolState α)
    (r : α) (hc : r ∈ s.checkedOut)
    (hf : s.pendingRemove.filter (fun u => decide (u.1 = r)) = [])
    (fid : FId) (rest : List FId) (hg : s.pendingGet = fid :: rest) :
    s.done r =
      ({ s with checkedOut := s.checkedOut.erase r ++ [r],
                pendingGet := rest },
       [Event.gotResource fid r]) := by
  rw [PoolState.done, if_pos hc, hf, hg]

theorem done_eq_of_idle {α : Type} [DecidableEq α] (s : PoolState α)
    (r : α) (hc : r ∈ s.checkedOut)
    (hf : s.pendingRemove.filter (fun u => decide (u.1 = r)) = [])
    (hg : s.pendingGet = []) :
    s.done r =
      ({ s with checkedOut := s.checkedOut.erase r,
                available := s.available ++ [r] }, []) := by
  rw [PoolState.done, if_pos hc, hf, hg]

/-- A concrete pool used to instantiate theorems: resource "foo" checked
out with two pending remove requests for it. -/
def wPoolRemovals : PoolState String := ⟨[], ["foo"], [], [("foo", 1), ("foo", 2)]⟩

/-- Claim C1: for every pool state and every checked-out resource r,
`done r` resolves pending requests in priority order — if pending-remove
entries for r exist, all of them resolve with r and r does not return to
available; else if pending-get requests exist, the earliest resolves with
r directly, available untouched; else r is appended to the end of
available. -/
theorem done_resolution_order {α : Type} [DecidableEq α] (s : PoolState α)
    (r : α) (hc : r ∈ s.checkedOut) (ha : r ∉ s.available) :
    (s.pendingRemove.filter (fun u => decide (u.1 = r)) ≠ [] →
      (s.done r).2 = (s.pendingRemove.filter (fun u => decide (u.1 = r))).map
          (fun u => Event.removed u.2 r) ∧
      (s.done r).1.available = s.available ∧
      r ∉ (s.done r).1.available ∧
      (s.done r).1.pendingRemove =
        s.pendingRemove.filter (fun u => decide (¬ u.1 = r))) ∧
    (s.pendingRemove.filter (fun u => decide (u.1 = r)) = [] →
      ∀ fid rest, s.pendingGet = fid :: rest →
        (s.done r).2 = [Event.gotResource fid r] ∧
        (s.done r).1.available = s.available ∧
        (s.done r).1.pendingGet = rest ∧
        r ∈ (s.done r).1.checkedOut) ∧
    (s.pendingRemove.filter (fun u => decide (u.1 = r)) = [] →
      s.pendingGet = [] →
        (s.done r).1.available = s.available ++ [r] ∧ (s.done r).2 = []) := by
  refine ⟨?_, ?_, ?_⟩
  · intro hne
    rcases hf : s.pendingRemove.filter (fun u => decide (u.1 = r)) with _ | ⟨p, q⟩
    · exact absurd hf hne
    · rw [done_eq_of_removals s r hc p q hf, hf]
      exact ⟨rfl, rfl, ha, rfl⟩
  · intro hf fid rest hg
    rw [done_eq_of_pendingGet s r hc hf fid rest hg]
    exact ⟨rfl, rfl, rfl, by simp⟩
  · intro hf hg
    rw [done_eq_of_idle s r hc hf hg]
    exact ⟨rfl, rfl⟩

/-- Evaluation of `done_resolution_order` on a concrete pool: "foo" is
checked out with two pending remove requests, and `done "foo"` resolves
both of them without putting "foo" back in available. -/
theorem done_resolution_order_witness :
    (wPoolRemovals.done "foo").2 =
        [Event.removed 1 "foo", Event.removed 2 "foo"] ∧
      "foo" ∉ (wPoolRemovals.done "foo").1.available := by
  have h := (done_resolution_order wPoolRemovals "foo" (by decide)
    (by decide)).1 (by decide)
  exact ⟨h.1.trans (by decide), h.2.2.1⟩

/-! The blocking runner (§4.3) and the runner pool (§4.4). -/

/-- Modelled from the spec: §4.3 — the synchronous connection as the
runner sees it; only the commit / rollback effects are observable, so the
state counts how many times each has been invoked. -/
structure DbConn where
  commits : Nat
  rollbacks : Nat
  deriving DecidableEq

/-- Modelled from the spec: §4.3 and §9 — BlockingRunner owns one
synchronous connection and a pluggable cursor factory chosen at
construction time; `κ` is the cursor type the factory produces. -/
structure BlockingRunner (κ : Type) where
  conn : DbConn
  cursorFactory : DbConn → κ

/-- Modelled from the spec: §4.3 `runInteraction(fn, *args, **kwargs)` —
obtain a fresh cursor via the factory, invoke `fn(cursor, *args, **kwargs)`
synchronously (keyword arguments are forwarded along with positional ones,
as asserted by BlockingRunnerTest.test_runInteraction), commit the
connection and resolve with fn's result on success, roll back and fail
with the original error on failure. -/
def BlockingRunner.runInteraction {κ π ω ε ρ : Type}
    (runner : BlockingRunner κ) (fn : κ → List π → ω → Except ε ρ)
    (args : List π) (kwargs : ω) : BlockingRunner κ × Except ε ρ :=
  match fn (runner.cursorFactory runner.conn) args kwargs with
  | Except.ok v =>
      ({ runner with
          conn := { runner.conn with commits := runner.conn.commits + 1 } },
       Except.ok v)
  | Except.error e =>
      ({ runner with
          conn := { runner.conn with rollbacks := runner.conn.rollbacks + 1 } },
       Except.error e)

/-- Observable steps of one runner-pool `runInteraction` call: checking a
runner out, invoking the runner's own runInteraction, checking the runner
back in, and settling the outer future. -/
inductive CPAction (σ ε ρ : Type) where
  | checkout (rid : Nat)
  | invoke (rid : Nat) (arg : σ)
  | checkin (rid : Nat)
  | settle (outcome : Except ε ρ)

def CPAction.isCheckout {σ ε ρ : Type} : CPAction σ ε ρ → Bool
  | CPAction.checkout _ => true
  | _ => false

def CPAction.isCheckin {σ ε ρ : Type} : CPAction σ ε ρ → Bool
  | CPAction.checkin _ => true
  | _ => false

def CPAction.isInvoke {σ ε ρ : Type} : CPAction σ ε ρ → Bool
  | CPAction.invoke _ _ => true
  | _ => false

def CPAction.isSettle {σ ε ρ : Type} : CPAction σ ε ρ → Bool
  | CPAction.settle _ => true
  | _ => false

/-- Modelled from the spec: §4.4 — the runner pool is a NextAvailablePool
whose resources are runner ids, plus the behaviour of each runner's own
`runInteraction` (the outcome of the forwarded call for a given
argument). -/
structure ConnectionPool (σ ε ρ : Type) where
  pool : PoolState Nat
  runnerBehavior : Nat → σ → Except ε ρ

/-- Modelled from the spec: §4.4 — the remainder of a runner-pool
`runInteraction` call from the moment its `get()` future resolves with
runner `rid` (the pool state `pool1` already has `rid` checked out by this
call): forward the call to the runner's `runInteraction`, check the runner
back in via `done()`, and only then settle the outer future with the
forwarded outcome, on success and failure alike. -/
def ConnectionPool.resume {σ ε ρ : Type} (cp : ConnectionPool σ ε ρ)
    (pool1 : PoolState Nat) (rid : Nat) (arg : σ) :
    ConnectionPool σ ε ρ × Except ε ρ × List (CPAction σ ε ρ) :=
  ({ cp with pool := (pool1.done rid).1 },
   cp.runnerBehavior rid arg,
   [CPAction.checkout rid, CPAction.invoke rid arg, CPAction.checkin rid,
    CPAction.settle (cp.runnerBehavior rid arg)])

/-- The immediate outcome of a runner-pool `runInteraction` call: either
a runner was available and the call completed synchronously, or the call
parked on a pending get (§4.2) and completes through
`ConnectionPool.resume` once that get resolves. -/
inductive RunOutcome (σ ε ρ : Type) where
  | completed
      (out : ConnectionPool σ ε ρ × Except ε ρ × List (CPAction σ ε ρ))
  | parked (cp : ConnectionPool σ ε ρ)

/-- Modelled from the spec: §4.4 `runInteraction(fn, *args)` — check a
runner out via `get()` and forward the call.  If a runner is available the
get resolves at once and the call completes synchronously; otherwise the
call parks as a pending-get request carrying its future id, to be
continued by `ConnectionPool.resume` when some later `add` or `done`
resolves that request with a runner. -/
def ConnectionPool.runInteraction {σ ε ρ : Type} (cp : ConnectionPool σ ε ρ)
    (arg : σ) (fid : FId) : RunOutcome σ ε ρ :=
  match (cp.pool.get fid).2 with
  | [Event.gotResource _ rid] =>
      RunOutcome.completed (cp.resume (cp.pool.get fid).1 rid arg)
  | _ => RunOutcome.parked { cp with pool := (cp.pool.get fid).1 }

/-- A run of the runner pool's runInteraction is balanced for runner
`rid`: the outer outcome is the forwarded call's outcome, the action trace
has exactly one checkout, one invocation (carrying the forwarded
argument), one checkin, and the checkin precedes the settle. -/
def BalancedCall {σ ε ρ : Type} (cp : ConnectionPool σ ε ρ) (rid : Nat)
    (arg : σ)
    (out : ConnectionPool σ ε ρ × Except ε ρ × List (CPAction σ ε ρ)) :
    Prop :=
  out.2.1 = cp.runnerBehavior rid arg ∧
  out.2.2.countP CPAction.isCheckout = 1 ∧
  out.2.2.countP CPAction.isCheckin = 1 ∧
  out.2.2.countP CPAction.isInvoke = 1 ∧
  CPAction.invoke rid arg ∈ out.2.2 ∧
  CPAction.checkin rid ∈ out.2.2.takeWhile (fun a => !a.isSettle) ∧
  CPAction.settle (cp.runnerBehavior rid arg) ∈ out.2.2

theorem balancedCall_resume {σ ε ρ : Type} (cp : ConnectionPool σ ε ρ)
    (pool1 : PoolState Nat) (rid : Nat) (arg : σ) :
    BalancedCall cp rid arg (cp.resume pool1 rid arg) := by
  refine ⟨rfl, ?_, ?_, ?_, ?_, ?_, ?_⟩
  · simp [ConnectionPool.resume, List.countP_cons, CPAction.isCheckout]
  · simp [ConnectionPool.resume, List.countP_cons, CPAction.isCheckin]
  · simp [ConnectionPool.resume, List.countP_cons, CPAction.isInvoke]
  · simp [ConnectionPool.resume]
  · simp [ConnectionPool.resume, List.takeWhile, CPAction.isSettle]
  · simp [ConnectionPool.resume]

/-- A concrete runner (trivial cursor, fresh connection) used to
instantiate the runner theorems. -/
def wRunner : BlockingRunner Unit := ⟨⟨0, 0⟩, fun _ => ()⟩

/-- A concrete interaction function that succeeds with 7. -/
def wFnOk : Unit → List Nat → Unit → Except String Nat :=
  fun _ _ _ => Except.ok 7

/-- A concrete interaction function that fails with "boom". -/
def wFnBad : Unit → List Nat → Unit → Except String Nat :=
  fun _ _ _ => Except.error "boom"

/-- Claim C5: `runInteraction` commits the connection and resolves with
fn's result when fn succeeds; rolls back and fails with fn's original
error, unmodified, when fn fails; commit is never invoked on the failure
path, and exactly one of commit/rollback executes exactly once per
call. -/
theorem runInteraction_transactional {κ π ω ε ρ : Type}
    (runner : BlockingRunner κ) (fn : κ → List π → ω → Except ε ρ)
    (args : List π) (kwargs : ω) :
    (∀ v, fn (runner.cursorFactory runner.conn) args kwargs = Except.ok v →
      (runner.runInteraction fn args kwargs).2 = Except.ok v ∧
      (runner.runInteraction fn args kwargs).1.conn.commits =
        runner.conn.commits + 1 ∧
      (runner.runInteraction fn args kwargs).1.conn.rollbacks =
        runner.conn.rollbacks) ∧
    (∀ e, fn (runner.cursorFactory runner.conn) args kwargs = Except.error e →
      (runner.runInteraction fn args kwargs).2 = Except.error e ∧
      (runner.runInteraction fn args kwargs).1.conn.rollbacks =
        runner.conn.rollbacks + 1 ∧
      (runner.runInteraction fn args kwargs).1.conn.commits =
        runner.conn.commits) ∧
    (runner.runInteraction fn args kwargs).1.conn.commits +
        (runner.runInteraction fn args kwargs).1.conn.rollbacks =
      runner.conn.commits + runner.conn.rollbacks + 1 := by
  refine ⟨?_, ?_, ?_⟩
  · intro v hv
    rw [BlockingRunner.runInteraction, hv]
    exact ⟨rfl, rfl, rfl⟩
  · intro e he
    rw [BlockingRunner.runInteraction, he]
    exact ⟨rfl, rfl, rfl⟩
  · cases h : fn (runner.cursorFactory runner.conn) args kwargs with
    | ok v =>
        rw [BlockingRunner.runInteraction, h]
        simp [Nat.add_assoc, Nat.add_comm, Nat.add_left_comm]
    | error e =>
        rw [BlockingRunner.runInteraction, h]
        simp [Nat.add_assoc]

/-- Evaluation of `runInteraction_transactional` at concrete inputs: a
succeeding interaction commits once and yields its result, a failing one
rolls back once and surfaces its error. -/
theorem runInteraction_transactional_witness :
    ((wRunner.runInteraction wFnOk [] ()).2 = Except.ok 7 ∧
      (wRunner.runInteraction wFnOk [] ()).1.conn.commits = 1) ∧
    ((wRunner.runInteraction wFnBad [] ()).2 = Except.error "boom" ∧
      (wRunner.runInteraction wFnBad [] ()).1.conn.rollbacks = 1 ∧
      (wRunner.runInteraction wFnBad [] ()).1.conn.commits = 0) := by
  have hok := (runInteraction_transactional wRunner wFnOk [] ()).1 7 rfl
  have hbad :=
    (runInteraction_transactional wRunner wFnBad [] ()).2.1 "boom" rfl
  exact ⟨⟨hok.1, hok.2.1⟩, ⟨hbad.1, hbad.2.1, hbad.2.2⟩⟩

/-- Claim C9: BlockingRunner.runInteraction invokes the interaction as
`fn(cursor, *args, **kwargs)` — keyword arguments are forwarded along with
the positional ones, the cursor is built by the runner's cursorFactory,
and the call's outcome is exactly fn's outcome on those arguments. -/
theorem runInteraction_forwards_kwargs {κ π ω ε ρ : Type}
    (runner : BlockingRunner κ) (fn : κ → List π → ω → Except ε ρ)
    (args : List π) (kwargs : ω) :
    (runner.runInteraction fn args kwargs).2 =
      fn (runner.cursorFactory runner.conn) args kwargs := by
  cases h : fn (runner.cursorFactory runner.conn) args kwargs with
  | ok v => rw [BlockingRunner.runInteraction, h]
  | error e => rw [BlockingRunner.runInteraction, h]

/-- A concrete runner pool: one runner (id 5) available, whose forwarded
runInteraction fails with "boom". -/
def wConnPool : ConnectionPool Unit String Nat :=
  ⟨⟨[5], [], [], []⟩, fun _ _ => Except.error "boom"⟩

/-- A concrete runner pool with no runner available at all: calls must
park. -/
def wConnPoolEmpty : ConnectionPool Unit String Nat :=
  ⟨⟨[], [], [], []⟩, fun _ _ => Except.error "boom"⟩

/-- Claim C8: every call to the runner pool's runInteraction — whether a
runner is available at call time or the call first parks on a pending
get — performs exactly one checkout and exactly one checkin, the checkin
before the outer future settles, invokes the checked-out runner's own
runInteraction exactly once with the forwarded argument, and the outer
outcome is that call's outcome, on success and failure alike.  A parked
call completes through `resume` at the step whose pending-get resolution
hands it a runner. -/
theorem connectionPool_runInteraction_balanced {σ ε ρ : Type}
    (cp : ConnectionPool σ ε ρ) (arg : σ) (fid : FId) :
    (∀ rid rest, cp.pool.available = rid :: rest →
      cp.runInteraction arg fid =
        RunOutcome.completed (cp.resume (cp.pool.get fid).1 rid arg) ∧
      BalancedCall cp rid arg (cp.resume (cp.pool.get fid).1 rid arg)) ∧
    (cp.pool.available = [] →
      cp.runInteraction arg fid =
        RunOutcome.parked { cp with pool := (cp.pool.get fid).1 } ∧
      fid ∈ ((cp.pool.get fid).1).pendingGet ∧
      ∀ (t : PoolState Nat) (op : Op Nat) (rid : Nat),
        Event.gotResource fid rid ∈ (step t op).2 →
        BalancedCall cp rid arg (cp.resume (step t op).1 rid arg)) := by
  constructor
  · intro rid rest h
    have h2 : (cp.pool.get fid).2 = [Event.gotResource fid rid] := by
      rw [get_eq_of_avail cp.pool fid rid rest h]
    exact ⟨by rw [ConnectionPool.runInteraction, h2],
      balancedCall_resume cp (cp.pool.get fid).1 rid arg⟩
  · intro h
    have h2 : (cp.pool.get fid).2 = [] := by
      rw [get_eq_of_empty cp.pool fid h]
    refine ⟨by rw [ConnectionPool.runInteraction, h2], ?_, ?_⟩
    · rw [get_eq_of_empty cp.pool fid h]
      simp
    · intro t op rid hev
      exact balancedCall_resume cp (step t op).1 rid arg

/-- Evaluation of `connectionPool_runInteraction_balanced` on both paths:
with runner 5 available the call completes at once with the runner's
error; with no runner available the call parks, and when a later
`add 5` resolves the parked get the resumed call yields the runner's
error with the checkin still before the settle. -/
theorem connectionPool_runInteraction_balanced_witness :
    (wConnPool.runInteraction () 0 =
        RunOutcome.completed (wConnPool.resume (wConnPool.pool.get 0).1 5 ()) ∧
      (wConnPool.resume (wConnPool.pool.get 0).1 5 ()).2.1 =
        Except.error "boom") ∧
    (wConnPoolEmpty.runInteraction () 0 =
        RunOutcome.parked
          { wConnPoolEmpty with pool := (wConnPoolEmpty.pool.get 0).1 } ∧
      (wConnPoolEmpty.resume
          (step (⟨[], [], [0], []⟩ : PoolState Nat) (Op.add 5)).1 5 ()).2.1 =
        Except.error "boom" ∧
      CPAction.checkin 5 ∈
        ((wConnPoolEmpty.resume
            (step (⟨[], [], [0], []⟩ : PoolState Nat) (Op.add 5)).1 5
            ()).2.2.takeWhile (fun a => !a.isSettle))) := by
  have h1 := (connectionPool_runInteraction_balanced wConnPool () 0).1 5 []
    rfl
  have h2 := (connectionPool_runInteraction_balanced wConnPoolEmpty () 0).2
    rfl
  have h3 := h2.2.2 (⟨[], [], [0], []⟩ : PoolState Nat) (Op.add 5) 5
    (by decide)
  exact ⟨⟨h1.1, h1.2.1⟩, ⟨h2.1, h3.1, h3.2.2.2.2.2.1⟩⟩

/-! Preservation of the structural invariant (§3) along well-formed
traces. -/

theorem step_preserves_inv {α : Type} [DecidableEq α] (s : PoolState α)
    (op : Op α) (hInv : Inv s) (hwf : WFOp s op = true) :
    Inv (step s op).1 := by
  obtain ⟨hA, hC, hD⟩ := hInv
  cases op with
  | add r =>
      have hw : r ∉ s.available ∧ r ∉ s.checkedOut := by
        simpa [WFOp] using hwf
      show Inv (s.add r).1
      rcases hg : s.pendingGet with _ | ⟨fid, rest⟩
      · rw [add_eq_of_no_pending s r hg]
        refine ⟨?_, hC, ?_⟩
        · refine List.nodup_append.mpr ⟨hA, List.nodup_singleton r, ?_⟩
          intro a ha hmem
          rcases List.mem_singleton.mp hmem with rfl
          exact hw.1 ha
        · intro x hx
          rcases List.mem_append.mp hx with hx | hx
          · exact hD x hx
          · rcases List.mem_singleton.mp hx with rfl
            exact hw.2
      · rw [add_eq_of_pending s r fid rest hg]
        refine ⟨hA, ?_, ?_⟩
        · refine List.nodup_append.mpr ⟨hC, List.nodup_singleton r, ?_⟩
          intro a ha hmem
          rcases List.mem_singleton.mp hmem with rfl
          exact hw.2 ha
        · intro x hx hmem
          rcases List.mem_append.mp hmem with hm | hm
          · exact hD x hx hm
          · rcases List.mem_singleton.mp hm with rfl
            exact hw.1 hx
  | get fid =>
      show Inv (s.get fid).1
      rcases hv : s.available with _ | ⟨r, rest⟩
      · rw [get_eq_of_empty s fid hv]
        exact ⟨hA, hC, hD⟩
      · have hA' := hv ▸ hA
        have hrrest := (List.nodup_cons.mp hA').1
        have hrest := (List.nodup_cons.mp hA').2
        have hrC : r ∉ s.checkedOut :=
          hD r (by rw [hv]; exact List.mem_cons_self r rest)
        rw [get_eq_of_avail s fid r rest hv]
        refine ⟨hrest, ?_, ?_⟩
        · refine List.nodup_append.mpr ⟨hC, List.nodup_singleton r, ?_⟩
          intro a ha hmem
          rcases List.mem_singleton.mp hmem with rfl
          exact hrC ha
        · intro x hx hmem
          have hxav : x ∈ s.available := by
            rw [hv]; exact List.mem_cons_of_mem r hx
          rcases List.mem_append.mp hmem with hm | hm
          · exact hD x hxav hm
          · rcases List.mem_singleton.mp hm with rfl
            exact hrrest hx
  | done r =>
      show Inv (s.done r).1
      by_cases hc : r ∈ s.checkedOut
      · have hrA : r ∉ s.available := fun hmem => hD r hmem hc
        rcases hf : s.pendingRemove.filter (fun u => decide (u.1 = r)) with
          _ | ⟨p, q⟩
        · rcases hg : s.pendingGet with _ | ⟨fid, rest⟩
          · rw [done_eq_of_idle s r hc hf hg]
            refine ⟨?_, hC.erase r, ?_⟩
            · refine List.nodup_append.mpr ⟨hA, List.nodup_singleton r, ?_⟩
              intro a ha hmem
              rcases List.mem_singleton.mp hmem with rfl
              exact hrA ha
            · intro x hx hmem
              rcases List.mem_append.mp hx with hx' | hx'
              · exact hD x hx' (List.mem_of_mem_erase hmem)
              · rcases List.mem_singleton.mp hx' with rfl
                exact hC.not_mem_erase hmem
          · rw [done_eq_of_pendingGet s r hc hf fid rest hg]
            refine ⟨hA, ?_, ?_⟩
            · refine List.nodup_append.mpr
                ⟨hC.erase r, List.nodup_singleton r, ?_⟩
              intro a ha hmem
              rcases List.mem_singleton.mp hmem with rfl
              exact hC.not_mem_erase ha
            · intro x hx hmem
              rcases List.mem_append.mp hmem with hm | hm
              · exact hD x hx (List.mem_of_mem_erase hm)
              · rcases List.mem_singleton.mp hm with rfl
                exact hrA hx
        · rw [done_eq_of_removals s r hc p q hf]
          exact ⟨hA, hC.erase r,
            fun x hx hm => hD x hx (List.mem_of_mem_erase hm)⟩
      · rw [done_eq_of_not_checkedOut s r hc]
        exact ⟨hA, hC, hD⟩
  | remove fid r =>
      show Inv (s.remove fid r).1
      by_cases hr : r ∈ s.available
      · rw [remove_eq_of_avail s fid r hr]
        exact ⟨hA.erase r, hC, fun x hx => hD x (List.mem_of_mem_erase hx)⟩
      · rw [remove_eq_of_not_avail s fid r hr]
        exact ⟨hA, hC, hD⟩

theorem runPool_preserves_inv {α : Type} [DecidableEq α] (s : PoolState α)
    (ops : List (Op α)) (hInv : Inv s) (hwf : WFTrace s ops = true) :
    Inv (runPool s ops).1 := by
  induction ops generalizing s with
  | nil => exact hInv
  | cons op rest ih =>
      rw [WFTrace, Bool.and_eq_true] at hwf
      exact ih (step s op).1 (step_preserves_inv s op hInv hwf.1) hwf.2

/-- In a state satisfying the invariant, any resource a step hands to a
get future was not held by anyone once the step's own release (the `done`
of the old holder) is accounted for. -/
theorem step_fresh_resource {α : Type} [DecidableEq α] (s : PoolState α)
    (op : Op α) (hInv : Inv s) (hwf : WFOp s op = true) (fid : FId) (x : α)
    (hx : Event.gotResource fid x ∈ (step s op).2) :
    x ∉ holdersAfterRelease s op := by
  obtain ⟨hA, hC, hD⟩ := hInv
  cases op with
  | add r =>
      have hw : r ∉ s.available ∧ r ∉ s.checkedOut := by
        simpa [WFOp] using hwf
      have hx' : Event.gotResource fid x ∈ (s.add r).2 := hx
      rcases hg : s.pendingGet with _ | ⟨fid', rest⟩
      · rw [add_eq_of_no_pending s r hg] at hx'
        cases hx'
      · rw [add_eq_of_pending s r fid' rest hg] at hx'
        rcases List.mem_singleton.mp hx' with h
        cases h
        exact hw.2
  | get fid' =>
      have hx' : Event.gotResource fid x ∈ (s.get fid').2 := hx
      rcases hv : s.available with _ | ⟨r, rest⟩
      · rw [get_eq_of_empty s fid' hv] at hx'
        cases hx'
      · rw [get_eq_of_avail s fid' r rest hv] at hx'
        rcases List.mem_singleton.mp hx' with h
        cases h
        exact hD x (by rw [hv]; exact List.mem_cons_self x rest)
  | done r =>
      have hx' : Event.gotResource fid x ∈ (s.done r).2 := hx
      show x ∉ s.checkedOut.erase r
      by_cases hc : r ∈ s.checkedOut
      · rcases hf : s.pendingRemove.filter (fun u => decide (u.1 = r)) with
          _ | ⟨p, q⟩
        · rcases hg : s.pendingGet with _ | ⟨fid', rest⟩
          · rw [done_eq_of_idle s r hc hf hg] at hx'
            cases hx'
          · rw [done_eq_of_pendingGet s r hc hf fid' rest hg] at hx'
            rcases List.mem_singleton.mp hx' with h
            cases h
            exact hC.not_mem_erase
        · rw [done_eq_of_removals s r hc p q hf] at hx'
          rcases List.mem_map.mp hx' with ⟨u, _, hu⟩
          cases hu
      · rw [done_eq_of_not_checkedOut s r hc] at hx'
        cases hx'
  | remove fid' r =>
      have hx' : Event.gotResource fid x ∈ (s.remove fid' r).2 := hx
      by_cases hr : r ∈ s.available
      · rw [remove_eq_of_avail s fid' r hr] at hx'
        rcases List.mem_singleton.mp hx' with h
        cases h
      · rw [remove_eq_of_not_avail s fid' r hr] at hx'
        cases hx'

/-- The well-formed trace used to instantiate the invariant theorem: one
get request parks on the empty pool. -/
def wOpsPark : List (Op String) := [Op.get 9]

/-- Claim C4: along every well-formed trace from the empty pool, the
reached state keeps available and checked-out duplicate-free and disjoint
(each known resource in exactly one of the two, in neither once removed),
and any get future the next step resolves receives a resource that no
caller still holds — checkout is mutually exclusive. -/
theorem pool_invariant_single_holder {α : Type} [DecidableEq α]
    (ops : List (Op α))
    (hwf : WFTrace (emptyPool : PoolState α) ops = true) :
    Inv (runPool (emptyPool : PoolState α) ops).1 ∧
    ∀ op : Op α, WFOp (runPool (emptyPool : PoolState α) ops).1 op = true →
      ∀ fid x, Event.gotResource fid x ∈
          (step (runPool (emptyPool : PoolState α) ops).1 op).2 →
        x ∉ holdersAfterRelease (runPool (emptyPool : PoolState α) ops).1 op := by
  have h0 : Inv (emptyPool : PoolState α) :=
    ⟨List.nodup_nil, List.nodup_nil, fun r h => absurd h (List.not_mem_nil r)⟩
  have hInv := runPool_preserves_inv (emptyPool : PoolState α) ops h0 hwf
  exact ⟨hInv, fun op hop fid x hx =>
    step_fresh_resource (runPool (emptyPool : PoolState α) ops).1 op hInv hop
      fid x hx⟩

/-- Evaluation of `pool_invariant_single_holder` on a concrete trace: a
get parks on the empty pool, the invariant holds, and the resource that a
subsequent `add "foo"` hands to that parked get is held by nobody. -/
theorem pool_invariant_single_holder_witness :
    Inv (runPool (emptyPool : PoolState String) wOpsPark).1 ∧
    "foo" ∉ holdersAfterRelease
        (runPool (emptyPool : PoolState String) wOpsPark).1
        (Op.add "foo") := by
  have h := pool_invariant_single_holder wOpsPark (by decide)
  exact ⟨h.1, h.2 (Op.add "foo") (by decide) 9 "foo" (by decide)⟩

/-! Stability of a checked-out resource: until its `done`, it stays
checked out, never reappears in available, none of its pending remove
requests resolve, and those requests are retained. -/

theorem removed_not_mem_nil {α : Type} (fid : FId) (x : α) :
    Event.removed fid x ∉ ([] : List (Event α)) :=
  List.not_mem_nil _

theorem removed_not_mem_got {α : Type} (fid g : FId) (x r : α) :
    Event.removed fid x ∉ [Event.gotResource g r] := by
  intro h
  rcases List.mem_singleton.mp h with h'
  cases h'

theorem removed_not_mem_removed_ne {α : Type} (fid g : FId) (x r : α)
    (hne : r ≠ x) : Event.removed fid x ∉ [Event.removed g r] := by
  intro h
  rcases List.mem_singleton.mp h with h'
  injection h' with h1 h2
  exact hne h2.symm

theorem step_checkedOut_stable {α : Type} [DecidableEq α] (x : α)
    (s : PoolState α) (op : Op α) (hwfop : WFOp s op = true)
    (hne : op ≠ Op.done x) (hc : x ∈ s.checkedOut) (ha : x ∉ s.available) :
    x ∈ (step s op).1.checkedOut ∧ x ∉ (step s op).1.available ∧
    (∀ fid, Event.removed fid x ∉ (step s op).2) ∧
    (∀ fid, (x, fid) ∈ s.pendingRemove →
      (x, fid) ∈ (step s op).1.pendingRemove) := by
  cases op with
  | add r =>
      have hw : r ∉ s.available ∧ r ∉ s.checkedOut := by
        simpa [WFOp] using hwfop
      have hrx : r ≠ x := fun h => hw.2 (h ▸ hc)
      show x ∈ (s.add r).1.checkedOut ∧ x ∉ (s.add r).1.available ∧
        (∀ fid, Event.removed fid x ∉ (s.add r).2) ∧
        (∀ fid, (x, fid) ∈ s.pendingRemove →
          (x, fid) ∈ (s.add r).1.pendingRemove)
      rcases hg : s.pendingGet with _ | ⟨fid', rest⟩
      · rw [add_eq_of_no_pending s r hg]
        refine ⟨hc, ?_, fun fid => removed_not_mem_nil fid x,
          fun fid h => h⟩
        intro hmem
        rcases List.mem_append.mp hmem with hm | hm
        · exact ha hm
        · exact hrx (List.mem_singleton.mp hm).symm
      · rw [add_eq_of_pending s r fid' rest hg]
        exact ⟨List.mem_append_left _ hc, ha,
          fun fid => removed_not_mem_got fid fid' x r, fun fid h => h⟩
  | get fid' =>
      show x ∈ (s.get fid').1.checkedOut ∧ x ∉ (s.get fid').1.available ∧
        (∀ fid, Event.removed fid x ∉ (s.get fid').2) ∧
        (∀ fid, (x, fid) ∈ s.pendingRemove →
          (x, fid) ∈ (s.get fid').1.pendingRemove)
      rcases hv : s.available with _ | ⟨r, rest⟩
      · rw [get_eq_of_empty s fid' hv]
        exact ⟨hc, ha, fun fid => removed_not_mem_nil fid x,
          fun fid h => h⟩
      · rw [get_eq_of_avail s fid' r rest hv]
        have hxrest : x ∉ rest := fun h =>
          ha (by rw [hv]; exact List.mem_cons_of_mem r h)
        exact ⟨List.mem_append_left _ hc, hxrest,
          fun fid => removed_not_mem_got fid fid' x r, fun fid h => h⟩
  | done r =>
      have hrx : r ≠ x := fun h => hne (by rw [h])
      show x ∈ (s.done r).1.checkedOut ∧ x ∉ (s.done r).1.available ∧
        (∀ fid, Event.removed fid x ∉ (s.done r).2) ∧
        (∀ fid, (x, fid) ∈ s.pendingRemove →
          (x, fid) ∈ (s.done r).1.pendingRemove)
      by_cases hcr : r ∈ s.checkedOut
      · have hxe : x ∈ s.checkedOut.erase r :=
          (List.mem_erase_of_ne (fun h => hrx h.symm)).mpr hc
        rcases hf : s.pendingRemove.filter (fun u => decide (u.1 = r)) with
          _ | ⟨p, q⟩
        · rcases hg : s.pendingGet with _ | ⟨fid', rest⟩
          · rw [done_eq_of_idle s r hcr hf hg]
            refine ⟨hxe, ?_, fun fid => removed_not_mem_nil fid x,
              fun fid h => h⟩
            intro hmem
            rcases List.mem_append.mp hmem with hm | hm
            · exact ha hm
            · exact hrx (List.mem_singleton.mp hm).symm
          · rw [done_eq_of_pendingGet s r hcr hf fid' rest hg]
            exact ⟨List.mem_append_left _ hxe, ha,
              fun fid => removed_not_mem_got fid fid' x r, fun fid h => h⟩
        · rw [done_eq_of_removals s r hcr p q hf]
          refine ⟨hxe, ha, ?_, ?_⟩
          · intro fid h
            rcases List.mem_map.mp h with ⟨u, _, hu⟩
            injection hu with h1 h2
            exact hrx h2
          · intro fid h
            exact List.mem_filter.mpr ⟨h, by simpa using fun h' => hrx h'.symm⟩
      · rw [done_eq_of_not_checkedOut s r hcr]
        exact ⟨hc, ha, fun fid => removed_not_mem_nil fid x,
          fun fid h => h⟩
  | remove fid' r =>
      show x ∈ (s.remove fid' r).1.checkedOut ∧
        x ∉ (s.remove fid' r).1.available ∧
        (∀ fid, Event.removed fid x ∉ (s.remove fid' r).2) ∧
        (∀ fid, (x, fid) ∈ s.pendingRemove →
          (x, fid) ∈ (s.remove fid' r).1.pendingRemove)
      by_cases hr : r ∈ s.available
      · have hrx : r ≠ x := fun h => ha (h ▸ hr)
        rw [remove_eq_of_avail s fid' r hr]
        exact ⟨hc, fun h => ha (List.mem_of_mem_erase h),
          fun fid => removed_not_mem_removed_ne fid fid' x r hrx,
          fun fid h => h⟩
      · rw [remove_eq_of_not_avail s fid' r hr]
        exact ⟨hc, ha, fun fid => removed_not_mem_nil fid x,
          fun fid h => List.mem_append_left _ h⟩

theorem runPool_checkedOut_stable {α : Type} [DecidableEq α] (x : α)
    (s : PoolState α) (ops : List (Op α)) (hwf : WFTrace s ops = true)
    (hnd : Op.done x ∉ ops) (hc : x ∈ s.checkedOut) (ha : x ∉ s.available) :
    x ∈ (runPool s ops).1.checkedOut ∧ x ∉ (runPool s ops).1.available ∧
    (∀ fid, Event.removed fid x ∉ (runPool s ops).2) ∧
    (∀ fid, (x, fid) ∈ s.pendingRemove →
      (x, fid) ∈ (runPool s ops).1.pendingRemove) := by
  induction ops generalizing s with
  | nil => exact ⟨hc, ha, fun fid => removed_not_mem_nil fid x, fun fid h => h⟩
  | cons op rest ih =>
      rw [WFTrace, Bool.and_eq_true] at hwf
      have hne : op ≠ Op.done x := fun h =>
        hnd (h ▸ List.mem_cons_self op rest)
      have hstep := step_checkedOut_stable x s op hwf.1 hne hc ha
      have hrest := ih (step s op).1 hwf.2
        (fun h => hnd (List.mem_cons_of_mem op h)) hstep.1 hstep.2.1
      refine ⟨hrest.1, hrest.2.1, ?_, ?_⟩
      · intro fid hmem
        rcases List.mem_append.mp hmem with hm | hm
        · exact hstep.2.2.1 fid hm
        · exact hrest.2.2.1 fid hm
      · intro fid h
        exact hrest.2.2.2 fid (hstep.2.2.2 fid h)

/-- A concrete pool with "foo" checked out and nothing else going on. -/
def wPoolHeld : PoolState String := ⟨[], ["foo"], [], []⟩

/-- Two concurrent remove requests for the checked-out "foo". -/
def wOpsRemoves : List (Op String) := [Op.remove 1 "foo", Op.remove 2 "foo"]

/-- Claim C2: while x is checked out, no remove(x) future resolves during
any well-formed trace that contains no done(x); the single done(x) that
follows resolves every outstanding remove(x) request (any number of them)
with x, and x is not re-added to available. -/
theorem remove_pending_until_done {α : Type} [DecidableEq α]
    (s : PoolState α) (x : α) (ops : List (Op α)) (hc : x ∈ s.checkedOut)
    (ha : x ∉ s.available) (hwf : WFTrace s ops = true)
    (hnd : Op.done x ∉ ops) :
    (∀ fid, Event.removed fid x ∉ (runPool s ops).2) ∧
    (∀ fid, (x, fid) ∈ (runPool s ops).1.pendingRemove →
        Event.removed fid x ∈ ((runPool s ops).1.done x).2) ∧
    ((∃ fid, (x, fid) ∈ (runPool s ops).1.pendingRemove) →
        x ∉ ((runPool s ops).1.done x).1.available) := by
  have hst := runPool_checkedOut_stable x s ops hwf hnd hc ha
  refine ⟨hst.2.2.1, ?_, ?_⟩
  · intro fid hmem
    have hmf : (x, fid) ∈ (runPool s ops).1.pendingRemove.filter
        (fun u => decide (u.1 = x)) :=
      List.mem_filter.mpr ⟨hmem, by simp⟩
    rcases hfe : (runPool s ops).1.pendingRemove.filter
        (fun u => decide (u.1 = x)) with _ | ⟨p, q⟩
    · rw [hfe] at hmf
      cases hmf
    · rw [done_eq_of_removals (runPool s ops).1 x hst.1 p q hfe]
      rw [hfe] at hmf
      exact List.mem_map.mpr ⟨(x, fid), hmf, rfl⟩
  · rintro ⟨fid, hmem⟩
    have hmf : (x, fid) ∈ (runPool s ops).1.pendingRemove.filter
        (fun u => decide (u.1 = x)) :=
      List.mem_filter.mpr ⟨hmem, by simp⟩
    rcases hfe : (runPool s ops).1.pendingRemove.filter
        (fun u => decide (u.1 = x)) with _ | ⟨p, q⟩
    · rw [hfe] at hmf
      cases hmf
    · rw [done_eq_of_removals (runPool s ops).1 x hst.1 p q hfe]
      exact hst.2.1

/-- Evaluation of `remove_pending_until_done` on a concrete run: two
remove requests for the checked-out "foo" stay unresolved through the
trace, and the single following `done "foo"` resolves both without
putting "foo" back in available. -/
theorem remove_pending_until_done_witness :
    Event.removed 1 "foo" ∉ (runPool wPoolHeld wOpsRemoves).2 ∧
    Event.removed 1 "foo" ∈ ((runPool wPoolHeld wOpsRemoves).1.done "foo").2 ∧
    Event.removed 2 "foo" ∈ ((runPool wPoolHeld wOpsRemoves).1.done "foo").2 ∧
    "foo" ∉ ((runPool wPoolHeld wOpsRemoves).1.done "foo").1.available := by
  have h := remove_pending_until_done wPoolHeld "foo" wOpsRemoves
    (by decide) (by decide) (by decide) (by decide)
  exact ⟨h.1 1, h.2.1 1 (by decide), h.2.1 2 (by decide),
    h.2.2 ⟨1, by decide⟩⟩

/-! Stability of a fully removed (unknown) resource: it never reappears
and no get future ever resolves with it. -/

theorem got_not_mem_nil {α : Type} (g : FId) (y : α) :
    Event.gotResource g y ∉ ([] : List (Event α)) :=
  List.not_mem_nil _

theorem got_not_mem_got_ne {α : Type} (g f : FId) (y r : α) (hne : r ≠ y) :
    Event.gotResource g y ∉ [Event.gotResource f r] := by
  intro h
  rcases List.mem_singleton.mp h with h'
  injection h' with h1 h2
  exact hne h2.symm

theorem got_not_mem_removed {α : Type} (g f : FId) (y r : α) :
    Event.gotResource g y ∉ [Event.removed f r] := by
  intro h
  rcases List.mem_singleton.mp h with h'
  cases h'

theorem got_not_mem_map_removed {α : Type} (g : FId) (y r : α)
    (l : List (α × FId)) :
    Event.gotResource g y ∉ l.map (fun u => Event.removed u.2 r) := by
  intro h
  rcases List.mem_map.mp h with ⟨u, _, hu⟩
  cases hu

theorem step_unknown_stable {α : Type} [DecidableEq α] (x : α)
    (s : PoolState α) (op : Op α) (hne : op ≠ Op.add x)
    (ha : x ∉ s.available) (hcx : x ∉ s.checkedOut) :
    x ∉ (step s op).1.available ∧ x ∉ (step s op).1.checkedOut ∧
    (∀ g, Event.gotResource g x ∉ (step s op).2) := by
  cases op with
  | add r =>
      have hrx : r ≠ x := fun h => hne (by rw [h])
      show x ∉ (s.add r).1.available ∧ x ∉ (s.add r).1.checkedOut ∧
        (∀ g, Event.gotResource g x ∉ (s.add r).2)
      rcases hg : s.pendingGet with _ | ⟨fid', rest⟩
      · rw [add_eq_of_no_pending s r hg]
        refine ⟨?_, hcx, fun g => got_not_mem_nil g x⟩
        intro hmem
        rcases List.mem_append.mp hmem with hm | hm
        · exact ha hm
        · exact hrx (List.mem_singleton.mp hm).symm
      · rw [add_eq_of_pending s r fid' rest hg]
        refine ⟨ha, ?_, fun g => got_not_mem_got_ne g fid' x r hrx⟩
        intro hmem
        rcases List.mem_append.mp hmem with hm | hm
        · exact hcx hm
        · exact hrx (List.mem_singleton.mp hm).symm
  | get fid' =>
      show x ∉ (s.get fid').1.available ∧ x ∉ (s.get fid').1.checkedOut ∧
        (∀ g, Event.gotResource g x ∉ (s.get fid').2)
      rcases hv : s.available with _ | ⟨r, rest⟩
      · rw [get_eq_of_empty s fid' hv]
        exact ⟨ha, hcx, fun g => got_not_mem_nil g x⟩
      · have hrx : r ≠ x := fun h =>
          ha (by rw [hv, h]; exact List.mem_cons_self x rest)
        have hxrest : x ∉ rest := fun h =>
          ha (by rw [hv]; exact List.mem_cons_of_mem r h)
        rw [get_eq_of_avail s fid' r rest hv]
        refine ⟨hxrest, ?_, fun g => got_not_mem_got_ne g fid' x r hrx⟩
        intro hmem
        rcases List.mem_append.mp hmem with hm | hm
        · exact hcx hm
        · exact hrx (List.mem_singleton.mp hm).symm
  | done r =>
      show x ∉ (s.done r).1.available ∧ x ∉ (s.done r).1.checkedOut ∧
        (∀ g, Event.gotResource g x ∉ (s.done r).2)
      by_cases hcr : r ∈ s.checkedOut
      · have hrx : r ≠ x := fun h => hcx (h ▸ hcr)
        have hxe : x ∉ s.checkedOut.erase r := fun h =>
          hcx (List.mem_of_mem_erase h)
        rcases hf : s.pendingRemove.filter (fun u => decide (u.1 = r)) with
          _ | ⟨p, q⟩
        · rcases hg : s.pendingGet with _ | ⟨fid', rest⟩
          · rw [done_eq_of_idle s r hcr hf hg]
            refine ⟨?_, hxe, fun g => got_not_mem_nil g x⟩
            intro hmem
            rcases List.mem_append.mp hmem with hm | hm
            · exact ha hm
            · exact hrx (List.mem_singleton.mp hm).symm
          · rw [done_eq_of_pendingGet s r hcr hf fid' rest hg]
            refine ⟨ha, ?_, fun g => got_not_mem_got_ne g fid' x r hrx⟩
            intro hmem
            rcases List.mem_append.mp hmem with hm | hm
            · exact hxe hm
            · exact hrx (List.mem_singleton.mp hm).symm
        · rw [done_eq_of_removals s r hcr p q hf]
          exact ⟨ha, hxe, fun g => got_not_mem_map_removed g x r (p :: q)⟩
      · rw [done_eq_of_not_checkedOut s r hcr]
        exact ⟨ha, hcx, fun g => got_not_mem_nil g x⟩
  | remove fid' r =>
      show x ∉ (s.remove fid' r).1.available ∧
        x ∉ (s.remove fid' r).1.checkedOut ∧
        (∀ g, Event.gotResource g x ∉ (s.remove fid' r).2)
      by_cases hr : r ∈ s.available
      · rw [remove_eq_of_avail s fid' r hr]
        exact ⟨fun h => ha (List.mem_of_mem_erase h), hcx,
          fun g => got_not_mem_removed g fid' x r⟩
      · rw [remove_eq_of_not_avail s fid' r hr]
        exact ⟨ha, hcx, fun g => got_not_mem_nil g x⟩

theorem runPool_unknown_stable {α : Type} [DecidableEq α] (x : α)
    (s : PoolState α) (ops : List (Op α)) (hadd : Op.add x ∉ ops)
    (ha : x ∉ s.available) (hcx : x ∉ s.checkedOut) :
    x ∉ (runPool s ops).1.available ∧ x ∉ (runPool s ops).1.checkedOut ∧
    (∀ g, Event.gotResource g x ∉ (runPool s ops).2) := by
  induction ops generalizing s with
  | nil => exact ⟨ha, hcx, fun g => got_not_mem_nil g x⟩
  | cons op rest ih =>
      have hne : op ≠ Op.add x := fun h =>
        hadd (h ▸ List.mem_cons_self op rest)
      have hstep := step_unknown_stable x s op hne ha hcx
      have hrest := ih (step s op).1
        (fun h => hadd (List.mem_cons_of_mem op h)) hstep.1 hstep.2.1
      refine ⟨hrest.1, hrest.2.1, ?_⟩
      intro g hmem
      rcases List.mem_append.mp hmem with hm | hm
      · exact hstep.2.2 g hm
      · exact hrest.2.2 g hm

/-- The pool of NextAvailablePoolTest.test_remove: "foo" and "bar"
available, nothing pending. -/
def wPoolTwo : PoolState String := ⟨["foo", "bar"], [], [], []⟩

/-- The trace following the removal in test_remove: two gets and a done. -/
def wOpsAfterRemove : List (Op String) :=
  [Op.get 1, Op.get 2, Op.done "bar"]

/-- Claim C6: removing a resource that sits in available removes it
immediately — the returned future resolves synchronously with it — and no
subsequent trace that does not re-add it ever resolves a get future with
it. -/
theorem remove_available_immediate {α : Type} [DecidableEq α]
    (s : PoolState α) (x : α) (fid : FId) (hA : s.available.Nodup)
    (hx : x ∈ s.available) (hcx : x ∉ s.checkedOut) (ops : List (Op α))
    (hadd : Op.add x ∉ ops) :
    (s.remove fid x).2 = [Event.removed fid x] ∧
    x ∉ (s.remove fid x).1.available ∧
    (∀ g, Event.gotResource g x ∉ (runPool (s.remove fid x).1 ops).2) := by
  have heq := remove_eq_of_avail s fid x hx
  have ha' : x ∉ (s.remove fid x).1.available := by
    rw [heq]
    exact hA.not_mem_erase
  have hcx' : x ∉ (s.remove fid x).1.checkedOut := by
    rw [heq]
    exact hcx
  refine ⟨by rw [heq], ha', ?_⟩
  exact (runPool_unknown_stable x (s.remove fid x).1 ops hadd ha' hcx').2.2

/-- Evaluation of `remove_available_immediate` on the test_remove
scenario: `remove "foo"` resolves synchronously, and neither of the two
subsequent gets (nor the get fulfilled by `done "bar"`) receives "foo". -/
theorem remove_available_immediate_witness :
    (wPoolTwo.remove 0 "foo").2 = [Event.removed 0 "foo"] ∧
    "foo" ∉ (wPoolTwo.remove 0 "foo").1.available ∧
    Event.gotResource 1 "foo" ∉
      (runPool (wPoolTwo.remove 0 "foo").1 wOpsAfterRemove).2 ∧
    Event.gotResource 2 "foo" ∉
      (runPool (wPoolTwo.remove 0 "foo").1 wOpsAfterRemove).2 := by
  have h := remove_available_immediate wPoolTwo "foo" 0 (by decide)
    (by decide) (by decide) wOpsAfterRemove (by decide)
  exact ⟨h.1, h.2.1, h.2.2 1, h.2.2 2⟩

/-- The pool used for the add-fulfills-pending witness: two parked get
requests. -/
def wPoolParked : PoolState String := ⟨[], [], [3, 4], []⟩

/-- Claim C7: when pending-get requests exist, `add` hands the new
resource to the earliest one instead of placing it in available; and for
any single well-formed operation, a future that was already pending can
only be resolved by an `add` or a `done`. -/
theorem add_fulfills_earliest_pending {α : Type} [DecidableEq α]
    (s : PoolState α) (r : α) (fid : FId) (rest : List FId)
    (h : s.pendingGet = fid :: rest) :
    (s.add r).2 = [Event.gotResource fid r] ∧
    (s.add r).1.available = s.available ∧
    (s.add r).1.pendingGet = rest ∧
    (∀ op : Op α, WFOp s op = true → ∀ g x, g ∈ s.pendingGet →
      Event.gotResource g x ∈ (step s op).2 →
      (∃ y, op = Op.add y) ∨ (∃ y, op = Op.done y)) := by
  rw [add_eq_of_pending s r fid rest h]
  refine ⟨rfl, rfl, rfl, ?_⟩
  intro op hwf g x hg hmem
  cases op with
  | add y => exact Or.inl ⟨y, rfl⟩
  | done y => exact Or.inr ⟨y, rfl⟩
  | get f =>
      exfalso
      have hf : f ∉ s.pendingGet := by simpa [WFOp] using hwf
      have hmem' : Event.gotResource g x ∈ (s.get f).2 := hmem
      rcases hv : s.available with _ | ⟨r', rest'⟩
      · rw [get_eq_of_empty s f hv] at hmem'
        exact got_not_mem_nil g x hmem'
      · rw [get_eq_of_avail s f r' rest' hv] at hmem'
        rcases List.mem_singleton.mp hmem' with h'
        injection h' with h1 h2
        exact hf (h1 ▸ hg)
  | remove f y =>
      exfalso
      have hmem' : Event.gotResource g x ∈ (s.remove f y).2 := hmem
      by_cases hr : y ∈ s.available
      · rw [remove_eq_of_avail s f y hr] at hmem'
        exact got_not_mem_removed g f x y hmem'
      · rw [remove_eq_of_not_avail s f y hr] at hmem'
        exact got_not_mem_nil g x hmem'

/-- Evaluation of `add_fulfills_earliest_pending`: with gets 3 and 4
parked, `add "foo"` resolves get 3 with "foo" and available stays
empty. -/
theorem add_fulfills_earliest_pending_witness :
    (wPoolParked.add "foo").2 = [Event.gotResource 3 "foo"] ∧
    (wPoolParked.add "foo").1.available = wPoolParked.available ∧
    (wPoolParked.add "foo").1.pendingGet = [4] := by
  have h := add_fulfills_earliest_pending wPoolParked "foo" 3 [4] rfl
  exact ⟨h.1, h.2.1, h.2.2.1⟩

/-! FIFO service of pending gets: every step either leaves the pending
queue's front untouched (possibly parking a fresh request at the back) or
resolves exactly the head of the queue. -/

theorem append_split_of_not_mem {β : Type} (u : List β) (v e₁ e₂ : List β)
    (x : β) (hx : x ∉ u) (h : u ++ v = e₁ ++ x :: e₂) :
    ∃ t, e₁ = u ++ t ∧ v = t ++ x :: e₂ := by
  induction u generalizing e₁ with
  | nil => exact ⟨e₁, (List.nil_append e₁).symm, by simpa using h⟩
  | cons c u' ih =>
      have hcx : c ≠ x := fun hcx' => hx (hcx' ▸ List.mem_cons_self c u')
      have hx' : x ∉ u' := fun hm => hx (List.mem_cons_of_mem c hm)
      cases e₁ with
      | nil =>
          rw [List.cons_append, List.nil_append] at h
          injection h with h1 h2
          exact absurd h1 hcx
      | cons d e₁' =>
          rw [List.cons_append, List.cons_append] at h
          injection h with h1 h2
          rcases ih e₁' hx' h2 with ⟨t, ht1, ht2⟩
          refine ⟨t, ?_, ht2⟩
          rw [List.cons_append, ← ht1, h1]

theorem step_pendingGet_shape {α : Type} [DecidableEq α] (s : PoolState α)
    (op : Op α) (hwf : WFOp s op = true) (hnd : s.pendingGet.Nodup) :
    (∃ new, (step s op).1.pendingGet = s.pendingGet ++ new ∧
        (step s op).1.pendingGet.Nodup ∧
        (∀ g r, Event.gotResource g r ∈ (step s op).2 → g ∉ s.pendingGet)) ∨
    (∃ f rest r, s.pendingGet = f :: rest ∧
        (step s op).1.pendingGet = rest ∧
        (step s op).2 = [Event.gotResource f r]) := by
  cases op with
  | add r =>
      have hstep : step s (Op.add r) = s.add r := rfl
      rcases hg : s.pendingGet with _ | ⟨f, rest⟩
      · rw [hstep, add_eq_of_no_pending s r hg]
        exact Or.inl ⟨[], by simp [hg], hnd,
          fun g r' h => absurd h (List.not_mem_nil _)⟩
      · rw [hstep, add_eq_of_pending s r f rest hg]
        exact Or.inr ⟨f, rest, r, rfl, rfl, rfl⟩
  | get fid =>
      have hstep : step s (Op.get fid) = s.get fid := rfl
      have hf : fid ∉ s.pendingGet := by simpa [WFOp] using hwf
      rcases hv : s.available with _ | ⟨r, rest⟩
      · rw [hstep, get_eq_of_empty s fid hv]
        refine Or.inl ⟨[fid], rfl, ?_,
          fun g r' h => absurd h (List.not_mem_nil _)⟩
        refine List.nodup_append.mpr ⟨hnd, List.nodup_singleton fid, ?_⟩
        intro u hu hmem
        rcases List.mem_singleton.mp hmem with rfl
        exact hf hu
      · rw [hstep, get_eq_of_avail s fid r rest hv]
        refine Or.inl ⟨[], by simp, hnd, ?_⟩
        intro g r' h
        rcases List.mem_singleton.mp h with h'
        injection h' with h1 h2
        exact h1.symm ▸ hf
  | done r =>
      have hstep : step s (Op.done r) = s.done r := rfl
      by_cases hcr : r ∈ s.checkedOut
      · rcases hfe : s.pendingRemove.filter (fun u => decide (u.1 = r)) with
          _ | ⟨p, q⟩
        · rcases hg : s.pendingGet with _ | ⟨f, rest⟩
          · rw [hstep, done_eq_of_idle s r hcr hfe hg]
            exact Or.inl ⟨[], by simp [hg], hnd,
              fun g r' h => absurd h (List.not_mem_nil _)⟩
          · rw [hstep, done_eq_of_pendingGet s r hcr hfe f rest hg]
            exact Or.inr ⟨f, rest, r, rfl, rfl, rfl⟩
        · rw [hstep, done_eq_of_removals s r hcr p q hfe]
          exact Or.inl ⟨[], by simp, hnd,
            fun g r' h => absurd h (got_not_mem_map_removed g r' r (p :: q))⟩
      · rw [hstep, done_eq_of_not_checkedOut s r hcr]
        exact Or.inl ⟨[], by simp, hnd,
          fun g r' h => absurd h (List.not_mem_nil _)⟩
  | remove fid r =>
      have hstep : step s (Op.remove fid r) = s.remove fid r := rfl
      by_cases hr : r ∈ s.available
      · rw [hstep, remove_eq_of_avail s fid r hr]
        exact Or.inl ⟨[], by simp, hnd,
          fun g r' h => absurd h (got_not_mem_removed g fid r' r)⟩
      · rw [hstep, remove_eq_of_not_avail s fid r hr]
        exact Or.inl ⟨[], by simp, hnd,
          fun g r' h => absurd h (List.not_mem_nil _)⟩

/-- A resource with outstanding pending-remove requests is drained by its
`done`, never offered to a pending get. -/
theorem done_drains_not_offers {α : Type} [DecidableEq α] (t : PoolState α)
    (r : α) (hne : t.pendingRemove.filter (fun u => decide (u.1 = r)) ≠ [])
    (g : FId) (y : α) : Event.gotResource g y ∉ (t.done r).2 := by
  by_cases hcr : r ∈ t.checkedOut
  · rcases hfe : t.pendingRemove.filter (fun u => decide (u.1 = r)) with
      _ | ⟨p, q⟩
    · exact absurd hfe hne
    · rw [done_eq_of_removals t r hcr p q hfe]
      exact got_not_mem_map_removed g y r (p :: q)
  · rw [done_eq_of_not_checkedOut t r hcr]
    exact List.not_mem_nil _

theorem fifo_aux {α : Type} [DecidableEq α] (b : FId) (rb : α)
    (evs₂ : List (Event α)) (l₂ : List FId) (a : FId) (ops : List (Op α)) :
    ∀ (s : PoolState α) (l₁ l₃ : List FId) (evs₁ : List (Event α)),
      s.pendingGet = l₁ ++ a :: l₂ ++ b :: l₃ →
      s.pendingGet.Nodup → WFTrace s ops = true →
      (runPool s ops).2 = evs₁ ++ Event.gotResource b rb :: evs₂ →
      ∃ ra, Event.gotResource a ra ∈ evs₁ := by
  induction ops with
  | nil =>
      intro s l₁ l₃ evs₁ hq hnd hwf hsplit
      have h0 : (runPool s ([] : List (Op α))).2 = [] := rfl
      rw [h0] at hsplit
      rcases List.append_eq_nil.mp hsplit.symm with ⟨h1, h2⟩
      simp at h2
  | cons op rest ih =>
      intro s l₁ l₃ evs₁ hq hnd hwf hsplit
      rw [WFTrace, Bool.and_eq_true] at hwf
      have hb : b ∈ s.pendingGet := by
        rw [hq]
        simp
      have hstep : (runPool s (op :: rest)).2 =
          (step s op).2 ++ (runPool (step s op).1 rest).2 := rfl
      rw [hstep] at hsplit
      rcases step_pendingGet_shape s op hwf.1 hnd with
        ⟨new, hq', hnd', hfresh⟩ | ⟨f, rest', r, hqf, hq', hev⟩
      · have hbev : Event.gotResource b rb ∉ (step s op).2 := fun hm =>
          hfresh b rb hm hb
        rcases append_split_of_not_mem (step s op).2 _ evs₁ evs₂ _ hbev
          hsplit with ⟨t, ht1, ht2⟩
        have hq'' : (step s op).1.pendingGet =
            l₁ ++ a :: l₂ ++ b :: (l₃ ++ new) := by
          rw [hq', hq]
          simp [List.append_assoc]
        rcases ih (step s op).1 l₁ (l₃ ++ new) t hq'' hnd' hwf.2 ht2 with
          ⟨ra, hra⟩
        exact ⟨ra, by rw [ht1]; exact List.mem_append_right _ hra⟩
      · have hcomb : f :: rest' = l₁ ++ a :: l₂ ++ b :: l₃ :=
          hqf.symm.trans hq
        rw [hqf] at hnd
        have hfnotin : f ∉ rest' := (List.nodup_cons.mp hnd).1
        rw [hev, List.singleton_append] at hsplit
        cases l₁ with
        | nil =>
            rw [List.nil_append] at hcomb
            injection hcomb with hfa hrest
            have hbrest : b ∈ rest' := by
              rw [hrest]
              simp
            have hfb : f ≠ b := fun h => hfnotin (h ▸ hbrest)
            cases evs₁ with
            | nil =>
                rw [List.nil_append] at hsplit
                injection hsplit with h1 h2
                injection h1 with hg1 hg2
                exact absurd hg1 hfb
            | cons e evs₁' =>
                rw [List.cons_append] at hsplit
                injection hsplit with h1 h2
                refine ⟨r, ?_⟩
                rw [← h1, ← hfa]
                exact List.mem_cons_self _ _
        | cons f' l₁' =>
            rw [List.cons_append] at hcomb
            injection hcomb with hff hrest
            have hbrest : b ∈ rest' := by
              rw [hrest]
              simp
            have hfb : f ≠ b := fun h => hfnotin (h ▸ hbrest)
            cases evs₁ with
            | nil =>
                rw [List.nil_append] at hsplit
                injection hsplit with h1 h2
                injection h1 with hg1 hg2
                exact absurd hg1 hfb
            | cons e evs₁' =>
                rw [List.cons_append] at hsplit
                injection hsplit with h1 h2
                have hnd'' : (step s op).1.pendingGet.Nodup := by
                  rw [hq']
                  exact (List.nodup_cons.mp hnd).2
                rcases ih (step s op).1 l₁' l₃ evs₁' (hq'.trans hrest)
                  hnd'' hwf.2 h2 with ⟨ra, hra⟩
                exact ⟨ra, List.mem_cons_of_mem e hra⟩

/-- The pool used for the FIFO witness: gets 7 and 8 parked, in that
order. -/
def wPoolFifo : PoolState String := ⟨[], [], [7, 8], []⟩

/-- Claim C3: pending gets are served strictly FIFO — over any well-formed
trace, if get a was enqueued before get b and b's future resolves, then
a's future resolved strictly earlier in the event sequence; and a resource
with outstanding pending-remove requests is never offered to a pending
get — its `done` drains it instead. -/
theorem pendingGet_fifo {α : Type} [DecidableEq α] (s : PoolState α)
    (ops : List (Op α)) (a b : FId) (l₁ l₂ l₃ : List FId) (rb : α)
    (evs₁ evs₂ : List (Event α))
    (hq : s.pendingGet = l₁ ++ a :: l₂ ++ b :: l₃)
    (hnd : s.pendingGet.Nodup) (hwf : WFTrace s ops = true)
    (hsplit : (runPool s ops).2 = evs₁ ++ Event.gotResource b rb :: evs₂) :
    (∃ ra, Event.gotResource a ra ∈ evs₁) ∧
    (∀ (t : PoolState α) (r : α),
      t.pendingRemove.filter (fun u => decide (u.1 = r)) ≠ [] →
      ∀ g y, Event.gotResource g y ∉ (t.done r).2) :=
  ⟨fifo_aux b rb evs₂ l₂ a ops s l₁ l₃ evs₁ hq hnd hwf hsplit,
   fun t r hne g y => done_drains_not_offers t r hne g y⟩

/-- Evaluation of `pendingGet_fifo` on a concrete run: gets 7 and 8 are
parked in that order, two adds come in, and get 7's resolution indeed
precedes get 8's. -/
theorem pendingGet_fifo_witness :
    ∃ ra, Event.gotResource 7 ra ∈ [Event.gotResource 7 "x"] :=
  (pendingGet_fifo wPoolFifo [Op.add "x", Op.add "y"] 7 8 [] [] [] "y"
    [Event.gotResource 7 "x"] [] (by decide) (by decide) (by decide)
    (by decide)).1

/-! The object-property mapping layer.  norm/orm.py is absent from the
tree; the model below follows the spec's §9 design note (per-instance
"changed" tracking as an explicit set of dirty field identifiers, each
field a metadata record with attribute name and default factory) and the
behaviours asserted by norm/test/test_orm.py. -/

/-- Modelled from the spec: §9 — a mapped field's metadata record, reduced
to what change tracking observes: the attribute name and the optional
default factory (represented by the value it would produce). -/
structure OrmProperty (V : Type) where
  attr_name : String
  default_factory : Option V
  deriving DecidableEq

/-- Modelled from the spec: §9 — per-instance state: stored values and the
explicit list of dirty field identifiers. -/
structure ObjInfo (V : Type) where
  values : List (String × V)
  dirty : List String
  deriving DecidableEq

/-- Modelled from the spec: a freshly constructed mapped object — each
property carrying a default_factory has its default installed and is
marked changed (objectInfoTest.test_changed_default). -/
def mkObject {V : Type} (props : List (OrmProperty V)) : ObjInfo V :=
  { values := props.filterMap
      (fun p => p.default_factory.map (fun v => (p.attr_name, v))),
    dirty := (props.filter (fun p => p.default_factory.isSome)).map
      (fun p => p.attr_name) }

/-- Modelled from the spec: ordinary attribute assignment — store the
value and mark the attribute changed. -/
def setAttr {V : Type} (o : ObjInfo V) (a : String) (v : V) : ObjInfo V :=
  { values := (a, v) :: o.values.filter (fun q => decide (¬ q.1 = a)),
    dirty := if a ∈ o.dirty then o.dirty else o.dirty ++ [a] }

/-- Modelled from the spec: Property.fromDatabase — install a value coming
from the database without marking the attribute changed
(PropertyTest.test_fromDatabase). -/
def fromDatabase {V : Type} (o : ObjInfo V) (a : String) (v : V) :
    ObjInfo V :=
  { values := (a, v) :: o.values.filter (fun q => decide (¬ q.1 = a)),
    dirty := o.dirty }

/-- Modelled from the spec: objectInfo(obj).resetChangedList() — empty the
changed list. -/
def resetChangedList {V : Type} (o : ObjInfo V) : ObjInfo V :=
  { o with dirty := [] }

/-- Modelled from the spec: objectInfo(obj).changed() — the properties of
the class whose attribute is currently marked dirty, in class order. -/
def changed {V : Type} (props : List (OrmProperty V)) (o : ObjInfo V) :
    List (OrmProperty V) :=
  props.filter (fun p => decide (p.attr_name ∈ o.dirty))

/-- One mutation of a mapped object. -/
inductive MutOp (V : Type) where
  | setAttr (a : String) (v : V)
  | fromDb (a : String) (v : V)
  | reset
  deriving DecidableEq

def applyOp {V : Type} (o : ObjInfo V) : MutOp V → ObjInfo V
  | MutOp.setAttr a v => setAttr o a v
  | MutOp.fromDb a v => fromDatabase o a v
  | MutOp.reset => resetChangedList o

def applyOps {V : Type} (o : ObjInfo V) (ops : List (MutOp V)) : ObjInfo V :=
  ops.foldl applyOp o

/-- The claim's own description of when an attribute counts as changed:
initially its default-factory flag; an ordinary assignment to it sets the
flag, a fromDatabase install leaves it, a reset clears it. -/
def dirtySpec {V : Type} (a : String) : Bool → List (MutOp V) → Bool
  | init, [] => init
  | init, MutOp.setAttr b _ :: rest => dirtySpec a (init || decide (a = b)) rest
  | init, MutOp.fromDb _ _ :: rest => dirtySpec a init rest
  | _, MutOp.reset :: rest => dirtySpec a false rest

theorem dirty_after_ops {V : Type} (ops : List (MutOp V)) (o : ObjInfo V)
    (a : String) :
    a ∈ (applyOps o ops).dirty ↔
      dirtySpec a (decide (a ∈ o.dirty)) ops = true := by
  induction ops generalizing o with
  | nil => simp [applyOps, dirtySpec]
  | cons op rest ih =>
      cases op with
      | setAttr b v =>
          have h1 : applyOps o (MutOp.setAttr b v :: rest) =
              applyOps (setAttr o b v) rest := rfl
          have h2 : dirtySpec a (decide (a ∈ o.dirty))
              (MutOp.setAttr b v :: rest) =
              dirtySpec a (decide (a ∈ o.dirty) || decide (a = b)) rest := rfl
          have hdec : decide (a ∈ (setAttr o b v).dirty) =
              (decide (a ∈ o.dirty) || decide (a = b)) := by
            by_cases hb : b ∈ o.dirty <;> by_cases hab : a = b <;>
              simp [setAttr, hb, hab]
          rw [h1, h2, ih (setAttr o b v), hdec]
      | fromDb b v =>
          have h1 : applyOps o (MutOp.fromDb b v :: rest) =
              applyOps (fromDatabase o b v) rest := rfl
          have h2 : dirtySpec a (decide (a ∈ o.dirty))
              (MutOp.fromDb b v :: rest) =
              dirtySpec a (decide (a ∈ o.dirty)) rest := rfl
          have hdec : decide (a ∈ (fromDatabase o b v).dirty) =
              decide (a ∈ o.dirty) := rfl
          rw [h1, h2, ih (fromDatabase o b v), hdec]
      | reset =>
          have h1 : applyOps o (MutOp.reset :: rest) =
              applyOps (resetChangedList o) rest := rfl
          have h2 : dirtySpec a (decide (a ∈ o.dirty))
              (MutOp.reset :: rest) =
              dirtySpec (V := V) a false rest := rfl
          have hdec : decide (a ∈ (resetChangedList o).dirty) = false := by
            simp [resetChangedList]
          rw [h1, h2, ih (resetChangedList o), hdec]

theorem mkObject_dirty {V : Type} (props : List (OrmProperty V))
    (hnd : (props.map OrmProperty.attr_name).Nodup) (p : OrmProperty V)
    (hp : p ∈ props) :
    p.attr_name ∈ (mkObject props).dirty ↔
      p.default_factory.isSome = true := by
  constructor
  · intro h
    rcases List.mem_map.mp h with ⟨q, hq, hqa⟩
    rcases List.mem_filter.mp hq with ⟨hqmem, hqsome⟩
    have hqp : q = p := List.inj_on_of_nodup_map hnd hqmem hp hqa
    rw [← hqp]
    simpa using hqsome
  · intro h
    exact List.mem_map.mpr ⟨p, List.mem_filter.mpr ⟨hp, by simpa using h⟩,
      rfl⟩

/-- The class of objectInfoTest, extended with a defaulted property:
plain properties "a" and "b", and "c" with a default factory. -/
def wProps : List (OrmProperty Nat) := [⟨"a", none⟩, ⟨"b", none⟩, ⟨"c", some 10⟩]

/-- The mutations of the combined test scenario: assign "a", install "b"
from the database. -/
def wMutOps : List (MutOp Nat) := [MutOp.setAttr "a" 1, MutOp.fromDb "b" 2]

/-- Claim C10: for every mapped class and every sequence of mutations,
`changed()` lists exactly the properties that were set by ordinary
assignment since the last reset or that carry a default_factory (with no
reset yet), and excludes properties whose value was only installed via
Property.fromDatabase; resetChangedList() empties the list until the next
assignment — all captured by the `dirtySpec` characterization. -/
theorem orm_changed_characterization {V : Type} (props : List (OrmProperty V))
    (hnd : (props.map OrmProperty.attr_name).Nodup) (ops : List (MutOp V))
    (p : OrmProperty V) (hp : p ∈ props) :
    p ∈ changed props (applyOps (mkObject props) ops) ↔
      dirtySpec p.attr_name p.default_factory.isSome ops = true := by
  have hinit : decide (p.attr_name ∈ (mkObject props).dirty) =
      p.default_factory.isSome := by
    by_cases hmem : p.attr_name ∈ (mkObject props).dirty
    · rw [decide_eq_true hmem]
      exact ((mkObject_dirty props hnd p hp).mp hmem).symm
    · rw [decide_eq_false hmem]
      cases hb : p.default_factory.isSome
      · rfl
      · exact absurd ((mkObject_dirty props hnd p hp).mpr hb) hmem
  have hmemiff : p ∈ changed props (applyOps (mkObject props) ops) ↔
      p.attr_name ∈ (applyOps (mkObject props) ops).dirty := by
    simp [changed, List.mem_filter, hp]
  rw [hmemiff, dirty_after_ops ops (mkObject props) p.attr_name, hinit]

/-- Evaluation of `orm_changed_characterization` on the test scenario:
after assigning "a" and installing "b" from the database, `changed()`
contains the assigned "a" and the defaulted "c" but not "b". -/
theorem orm_changed_characterization_witness :
    (⟨"a", none⟩ : OrmProperty Nat) ∈
        changed wProps (applyOps (mkObject wProps) wMutOps) ∧
    (⟨"c", some 10⟩ : OrmProperty Nat) ∈
        changed wProps (applyOps (mkObject wProps) wMutOps) ∧
    (⟨"b", none⟩ : OrmProperty Nat) ∉
        changed wProps (applyOps (mkObject wProps) wMutOps) := by
  refine ⟨?_, ?_, ?_⟩
  · exact (orm_changed_characterization wProps (by decide) wMutOps
      ⟨"a", none⟩ (by decide)).mpr (by decide)
  · exact (orm_changed_characterization wProps (by decide) wMutOps
      ⟨"c", some 10⟩ (by decide)).mpr (by decide)
  · intro hmem
    exact absurd ((orm_changed_characterization wProps (by decide) wMutOps
      ⟨"b", none⟩ (by decide)).mp hmem) (by decide)

end Norm
